import Mathlib

/-!
Verification of the Huffman stream engine in src/huffman/util.py.

The file src/huffman/util.py is the only source file of the repository; it
drives bit-by-bit decoding over a Huffman tree and table-driven encoding,
framing a pickled tree description followed by a bit-packed payload.  The
collaborating modules (bitio, huffman, pickle) are not part of the
repository source, so their behaviour is modelled from the specification,
as marked on each such definition.

Conventions of the embedding:
* a byte is a Nat (meaningful values are below 256);
* the sentinel value stored in a leaf is the Python value None, embedded
  as the value none of type Option Nat, while a data byte b is some b;
* Python exceptions become explicit error values: an unhandled exception
  escaping decompress is a crash result, and a nonterminating while loop
  is a hang result (the fuel given to the loop is one more than the number
  of available bits, which is exhausted exactly when the Python loop can
  never terminate, since every loop iteration on an internal-node tree
  consumes at least one bit before emitting a symbol).
-/

namespace HuffmanUtil

/-- Huffman tree value, modelled from the spec data model: a Leaf holds
either a concrete byte symbol or the end-of-stream sentinel (the Python
value None, here the value none); an Internal node owns exactly two
children.  The Python classes huffman.TreeLeaf and huffman.TreeBranch are
not part of the repository source. -/
inductive HTree where
  | leaf (value : Option Nat)
  | node (left right : HTree)
deriving DecidableEq

/-- Python runtime error escaping the engine.  nameError models the
NameError raised by evaluating the undefined name NONE in read_tree. -/
inductive PyError where
  | nameError
deriving DecidableEq

/-- Error escaping compress: keyError k models the Python KeyError raised
by the dictionary access table[k] when k has no entry. -/
inductive CompressError where
  | keyError (k : Option Nat)
deriving DecidableEq

/-- Result of running decompress: a normal return with the bytes written
to the uncompressed stream, a crash with an unhandled Python exception, or
a while loop that never terminates. -/
inductive DResult where
  | output (bytes : List Nat)
  | crash (e : PyError)
  | hang
deriving DecidableEq

/-- Compressed stream: a tree section (some t when the section is a valid
pickled description of t, none when it is empty so that pickle.load raises
EOFError), the payload bytes that follow the tree section, and the current
stream position (0 is the start of the stream, 1 is just after the tree
section). -/
structure CStream where
  treeDesc : Option HTree
  payload : List Nat
  pos : Nat
deriving DecidableEq

/-! ## Bit-level primitives, modelled from the spec (the bitio module is
not part of the repository source). -/

/-- Modelled from the spec: the n low bits of v, most significant first,
exactly the bits written by the bit sink operation writebits(v, n) and
assembled by the bit source operation readbits(n). -/
def natBits : Nat → Nat → List Bool
  | 0, _ => []
  | n + 1, v => natBits n (v / 2) ++ [v % 2 == 1]

/-- Value of a bit list read most significant bit first, as accumulated by
the bit source: each bit shifts the accumulator left and is or-ed in. -/
def bitsToNat (l : List Bool) : Nat :=
  l.foldl (fun acc b => 2 * acc + b.toNat) 0

/-- The bit sequence carried by a byte sequence, eight bits per byte, most
significant bit first: exactly the successive values returned by the bit
source readbit operation over those bytes. -/
def bytesToBits : List Nat → List Bool
  | [] => []
  | b :: rest => natBits 8 b ++ bytesToBits rest

/-- Modelled from the spec: state of the bit sink, which buffers bits of a
partial byte and emits each byte once eight bits have accumulated. -/
structure BWState where
  bytes : List Nat
  buf : List Bool
deriving DecidableEq

/-- Modelled from the spec: write one bit to the bit sink; the eighth bit
of the buffer completes a byte, which is emitted. -/
def writebit (w : BWState) (b : Bool) : BWState :=
  if w.buf.length = 7 then ⟨w.bytes ++ [bitsToNat (w.buf ++ [b])], []⟩
  else ⟨w.bytes, w.buf ++ [b]⟩

/-- Write a sequence of bits to the bit sink, in order. -/
def writeBits (w : BWState) (bs : List Bool) : BWState :=
  bs.foldl writebit w

/-- Modelled from the spec: flush pads the current partial byte with 0
bits up to the next byte boundary and emits it; it is a no-op when the
sink is already byte aligned. -/
def flushBW (w : BWState) : BWState :=
  if w.buf = [] then w
  else ⟨w.bytes ++ [bitsToNat (w.buf ++ List.replicate (8 - w.buf.length) false)], []⟩

/-! ## The engine of src/huffman/util.py. -/

/-- read_tree from src/huffman/util.py: seek to the start of the stream,
then pickle.load the tree description.  When the tree section is empty,
pickle.load raises EOFError; the except branch of the source executes
return NONE, and NONE is an undefined Python name, so the handler itself
raises NameError, which escapes read_tree. -/
def read_tree (s : CStream) : Except PyError (HTree × CStream) :=
  match s.treeDesc with
  | some t => .ok (t, ⟨s.treeDesc, s.payload, 1⟩)
  | none => .error .nameError

/-- decode_byte from src/huffman/util.py: starting at the root, while the
node is internal read one bit, moving right on bit 1 and left otherwise,
until a leaf is reached; return the leaf value and leave the remaining
bits unread.  When readbit raises EOFError at an internal node the source
returns None, the very value that also marks the sentinel leaf. -/
def decode_byte : HTree → List Bool → Option Nat × List Bool
  | .leaf v, bits => (v, bits)
  | .node _ _, [] => (none, [])
  | .node l r, b :: rest => decode_byte (if b then r else l) rest

/-- Modelled from the spec: walk the tree depth first from the root,
accumulating the path taken, 0 for a left edge and 1 for a right edge; on
reaching a leaf record the pair of its value and the accumulated path.
The function huffman.make_encoding_table is not part of the repository
source. -/
def tableAux : HTree → List Bool → List (Option Nat × List Bool)
  | .leaf v, path => [(v, path)]
  | .node l r, path => tableAux l (path ++ [false]) ++ tableAux r (path ++ [true])

/-- Modelled from the spec: the encoding table maps each leaf value,
sentinel included, to the bit sequence of its root-to-leaf path. -/
def make_encoding_table (t : HTree) : List (Option Nat × List Bool) :=
  tableAux t []

/-- Dictionary access table[k]: the code stored for k, or none when k has
no entry (in which case the Python access raises KeyError). -/
def tableGet : List (Option Nat × List Bool) → Option Nat → Option (List Bool)
  | [], _ => none
  | (k, v) :: rest, q => if k = q then some v else tableGet rest q

/-- The encode loop of compress in src/huffman/util.py, at the level of
the bit sequence it writes: read one byte at a time from the input; look
its code up in the table (a missing entry raises KeyError) and write the
bits of the code; when the input is exhausted write the sentinel code from
the table (again a missing entry raises KeyError). -/
def compressLoop (table : List (Option Nat × List Bool)) :
    List Nat → Except CompressError (List Bool)
  | [] =>
    match tableGet table none with
    | some code => .ok code
    | none => .error (.keyError none)
  | b :: rest =>
    match tableGet table (some b) with
    | some code => (compressLoop table rest).map (fun bs => code ++ bs)
    | none => .error (.keyError (some b))

/-- write_tree from src/huffman/util.py: pickle.dump the tree to the
stream; modelled from the spec contract that the paired read reconstructs
an equal tree, the written description is the tree section some t. -/
def write_tree (t : HTree) : Option HTree :=
  some t

/-- compress from src/huffman/util.py: write the tree description, build
the encoding table, run the encode loop over the input bytes through the
bit sink, and flush.  The result is the compressed stream; an error is a
KeyError escaping the loop. -/
def compress (tree : HTree) (uncompressed : List Nat) :
    Except CompressError CStream :=
  match compressLoop (make_encoding_table tree) uncompressed with
  | .error e => .error e
  | .ok bits => .ok ⟨write_tree tree, (flushBW (writeBits ⟨[], []⟩ bits)).bytes, 0⟩

/-- The decode loop of decompress in src/huffman/util.py: repeatedly call
decode_byte from the root; while the value is not None record it, and stop
at None.  The fuel argument makes the Python while loop structurally
recursive; running out of fuel models a loop that never terminates. -/
def decompressLoop : Nat → HTree → List Bool → Option (List Nat)
  | 0, _, _ => none
  | fuel + 1, tree, bits =>
    match decode_byte tree bits with
    | (none, _) => some []
    | (some v, rest) => (decompressLoop fuel tree rest).map (fun out => v :: out)

/-- The output side of decompress: each decoded value is written with
writebits(value, 8) to a bit sink over the uncompressed stream, which is
flushed at the end; the result is the byte sequence emitted. -/
def decompressOut (vals : List Nat) : List Nat :=
  (flushBW (writeBits ⟨[], []⟩ (bytesToBits vals))).bytes

/-- decompress from src/huffman/util.py: read the tree with read_tree
(a NameError escaping it is a crash of decompress), then run the decode
loop over the bits of the payload, writing each decoded value as eight
bits and flushing.  The fuel handed to the loop is one more than the
number of payload bits, which the loop can exhaust only by looping
forever in Python. -/
def decompress (s : CStream) : DResult :=
  match read_tree s with
  | .error e => .crash e
  | .ok (t, s1) =>
    match decompressLoop ((bytesToBits s1.payload).length + 1) t (bytesToBits s1.payload) with
    | none => .hang
    | some vals => .output (decompressOut vals)

/-! ## Bit arithmetic lemmas. -/

theorem natBits_length (n v : Nat) : (natBits n v).length = n := by
  induction n generalizing v with
  | zero => simp [natBits]
  | succ n ih => simp [natBits, ih]

theorem bitsToNat_append (l : List Bool) (b : Bool) :
    bitsToNat (l ++ [b]) = 2 * bitsToNat l + b.toNat := by
  simp [bitsToNat, List.foldl_append]

theorem bitsToNat_natBits (n v : Nat) : bitsToNat (natBits n v) = v % 2 ^ n := by
  induction n generalizing v with
  | zero => simp [natBits, bitsToNat, Nat.mod_one]
  | succ n ih =>
    rw [natBits, bitsToNat_append, ih]
    have hb : (v % 2 == 1).toNat = v % 2 := by
      rcases Nat.mod_two_eq_zero_or_one v with h | h <;> simp [h]
    rw [hb, pow_succ', Nat.mod_mul]
    omega

theorem natBits_bitsToNat_eight : ∀ a b c d e f g h : Bool,
    natBits 8 (bitsToNat [a, b, c, d, e, f, g, h]) = [a, b, c, d, e, f, g, h] := by
  decide

theorem natBits_bitsToNat (l : List Bool) (hl : l.length = 8) :
    natBits 8 (bitsToNat l) = l := by
  rcases l with _ | ⟨a, l⟩; · simp at hl
  rcases l with _ | ⟨b, l⟩; · simp at hl
  rcases l with _ | ⟨c, l⟩; · simp at hl
  rcases l with _ | ⟨d, l⟩; · simp at hl
  rcases l with _ | ⟨e, l⟩; · simp at hl
  rcases l with _ | ⟨f, l⟩; · simp at hl
  rcases l with _ | ⟨g, l⟩; · simp at hl
  rcases l with _ | ⟨h, l⟩; · simp at hl
  rcases l with _ | ⟨i, l⟩
  · exact natBits_bitsToNat_eight a b c d e f g h
  · simp at hl

theorem bytesToBits_append (l1 l2 : List Nat) :
    bytesToBits (l1 ++ l2) = bytesToBits l1 ++ bytesToBits l2 := by
  induction l1 with
  | nil => simp [bytesToBits]
  | cons x l1 ih => simp [bytesToBits, ih]

theorem bytesToBits_length (l : List Nat) : (bytesToBits l).length = 8 * l.length := by
  induction l with
  | nil => simp [bytesToBits]
  | cons x l ih => simp [bytesToBits, natBits_length, ih]; omega

/-! ## Bit sink lemmas. -/

/-- The full bit sequence held by the bit sink: the bits of the emitted
bytes followed by the buffered bits of the current partial byte. -/
def bwStream (w : BWState) : List Bool := bytesToBits w.bytes ++ w.buf

theorem writebit_stream (w : BWState) (b : Bool) (h : w.buf.length < 8) :
    bwStream (writebit w b) = bwStream w ++ [b] ∧ (writebit w b).buf.length < 8 := by
  by_cases h7 : w.buf.length = 7
  · refine ⟨?_, by simp [writebit, h7]⟩
    rw [bwStream, writebit, if_pos h7]
    simp only [bytesToBits_append]
    have h8 : (w.buf ++ [b]).length = 8 := by simp [h7]
    simp [bytesToBits, natBits_bitsToNat _ h8, bwStream, List.append_assoc]
  · refine ⟨?_, ?_⟩
    · rw [bwStream, writebit, if_neg h7]
      simp [bwStream, List.append_assoc]
    · rw [writebit, if_neg h7]
      simp
      omega

theorem writeBits_stream : ∀ (bs : List Bool) (w : BWState), w.buf.length < 8 →
    bwStream (writeBits w bs) = bwStream w ++ bs ∧ (writeBits w bs).buf.length < 8
  | [], w, h => by simp [writeBits, h]
  | b :: bs, w, h => by
    obtain ⟨h1, h2⟩ := writebit_stream w b h
    obtain ⟨h3, h4⟩ := writeBits_stream bs (writebit w b) h2
    constructor
    · show bwStream (writeBits (writebit w b) bs) = _
      rw [h3, h1]
      simp [List.append_assoc]
    · exact h4

theorem flushBW_stream (w : BWState) (h : w.buf.length < 8) :
    bwStream (flushBW w) = bwStream w ++ List.replicate ((8 - w.buf.length) % 8) false ∧
      (flushBW w).buf = [] := by
  by_cases hb : w.buf = []
  · simp [flushBW, hb, bwStream]
  · have hpos : 0 < w.buf.length := List.length_pos.mpr hb
    have hfit : (w.buf ++ List.replicate (8 - w.buf.length) false).length = 8 := by
      simp
      omega
    refine ⟨?_, by simp [flushBW, hb]⟩
    rw [bwStream, flushBW, if_neg hb]
    simp only [bytesToBits_append]
    simp [bytesToBits, natBits_bitsToNat _ hfit, bwStream, List.append_assoc,
      Nat.mod_eq_of_lt (show 8 - w.buf.length < 8 by omega)]

/-! ## Encoding table and decoding lemmas. -/

theorem tableGet_mem : ∀ (tbl : List (Option Nat × List Bool)) (k : Option Nat)
    (c : List Bool), tableGet tbl k = some c → (k, c) ∈ tbl
  | [], k, c => by simp [tableGet]
  | (k', v') :: rest, k, c => by
    rw [tableGet]
    by_cases hk : k' = k
    · rw [if_pos hk]
      intro h
      cases h
      subst hk
      exact List.mem_cons_self _ _
    · rw [if_neg hk]
      intro h
      exact List.mem_cons_of_mem _ (tableGet_mem rest k c h)

theorem tableAux_decode : ∀ (t : HTree) (pre : List Bool) (v : Option Nat) (c : List Bool),
    (v, c) ∈ tableAux t pre →
      ∃ tail, c = pre ++ tail ∧ ∀ rest, decode_byte t (tail ++ rest) = (v, rest)
  | .leaf w, pre, v, c => by
    intro h
    simp [tableAux] at h
    obtain ⟨h1, h2⟩ := h
    subst h1
    subst h2
    exact ⟨[], by simp, fun rest => by simp [decode_byte]⟩
  | .node l r, pre, v, c => by
    intro h
    rw [tableAux, List.mem_append] at h
    rcases h with h | h
    · obtain ⟨tail, htail, hdec⟩ := tableAux_decode l (pre ++ [false]) v c h
      refine ⟨false :: tail, by simp [htail], fun rest => ?_⟩
      rw [List.cons_append, decode_byte]
      simp [hdec rest]
    · obtain ⟨tail, htail, hdec⟩ := tableAux_decode r (pre ++ [true]) v c h
      refine ⟨true :: tail, by simp [htail], fun rest => ?_⟩
      rw [List.cons_append, decode_byte]
      simp [hdec rest]

theorem decode_table (t : HTree) (v : Option Nat) (c : List Bool)
    (h : (v, c) ∈ make_encoding_table t) (rest : List Bool) :
    decode_byte t (c ++ rest) = (v, rest) := by
  obtain ⟨tail, htail, hdec⟩ := tableAux_decode t [] v c h
  simp at htail
  subst htail
  exact hdec rest

theorem tableAux_pre_le : ∀ (t : HTree) (pre : List Bool) (v : Option Nat) (c : List Bool),
    (v, c) ∈ tableAux t pre → pre.length ≤ c.length
  | .leaf w, pre, v, c => by
    intro h
    simp [tableAux] at h
    simp [h.2]
  | .node l r, pre, v, c => by
    intro h
    rw [tableAux, List.mem_append] at h
    rcases h with h | h
    · have := tableAux_pre_le l (pre ++ [false]) v c h
      simp at this
      omega
    · have := tableAux_pre_le r (pre ++ [true]) v c h
      simp at this
      omega

theorem table_node_code_pos (l r : HTree) (v : Option Nat) (c : List Bool)
    (h : (v, c) ∈ make_encoding_table (.node l r)) : 0 < c.length := by
  rw [make_encoding_table, tableAux, List.mem_append] at h
  rcases h with h | h
  · have := tableAux_pre_le l [false] v c h
    simp at this
    omega
  · have := tableAux_pre_le r [true] v c h
    simp at this
    omega

/-! ## Output writer lemmas. -/

theorem writeBits_append (w : BWState) (l1 l2 : List Bool) :
    writeBits w (l1 ++ l2) = writeBits (writeBits w l1) l2 := by
  simp [writeBits, List.foldl_append]

theorem writeBits_eight (l : List Bool) (hl : l.length = 8) (bytes : List Nat) :
    writeBits ⟨bytes, []⟩ l = ⟨bytes ++ [bitsToNat l], []⟩ := by
  rcases l with _ | ⟨a, l⟩; · simp at hl
  rcases l with _ | ⟨b, l⟩; · simp at hl
  rcases l with _ | ⟨c, l⟩; · simp at hl
  rcases l with _ | ⟨d, l⟩; · simp at hl
  rcases l with _ | ⟨e, l⟩; · simp at hl
  rcases l with _ | ⟨f, l⟩; · simp at hl
  rcases l with _ | ⟨g, l⟩; · simp at hl
  rcases l with _ | ⟨h, l⟩; · simp at hl
  rcases l with _ | ⟨i, l⟩
  · simp [writeBits, writebit]
  · simp at hl

theorem decompressOut_aux : ∀ (vals bytes : List Nat),
    (flushBW (writeBits ⟨bytes, []⟩ (bytesToBits vals))).bytes =
      bytes ++ vals.map (fun v => v % 2 ^ 8)
  | [], bytes => by simp [bytesToBits, writeBits, flushBW]
  | v :: vals, bytes => by
    rw [show bytesToBits (v :: vals) = natBits 8 v ++ bytesToBits vals from rfl]
    rw [writeBits_append, writeBits_eight (natBits 8 v) (natBits_length 8 v) bytes]
    rw [bitsToNat_natBits, decompressOut_aux vals (bytes ++ [v % 2 ^ 8])]
    simp

theorem decompressOut_eq (vals : List Nat) :
    decompressOut vals = vals.map (fun v => v % 2 ^ 8) := by
  have := decompressOut_aux vals []
  simpa [decompressOut] using this

/-! ## Encode loop lemmas. -/

theorem compressLoop_decode : ∀ (S : List Nat) (t : HTree) (fuel : Nat)
    (bits extra : List Bool),
    compressLoop (make_encoding_table t) S = .ok bits → S.length < fuel →
    decompressLoop fuel t (bits ++ extra) = some S
  | [], t, fuel, bits, extra => by
    intro h hf
    rw [compressLoop] at h
    cases hg : tableGet (make_encoding_table t) none with
    | none => rw [hg] at h; exact absurd h (by simp)
    | some code =>
      rw [hg] at h
      injection h with h
      subst h
      obtain _ | f := fuel
      · exact absurd hf (by omega)
      · rw [decompressLoop, decode_table t none code (tableGet_mem _ _ _ hg) extra]
  | b :: rest, t, fuel, bits, extra => by
    intro h hf
    rw [compressLoop] at h
    cases hg : tableGet (make_encoding_table t) (some b) with
    | none => rw [hg] at h; exact absurd h (by simp)
    | some code =>
      rw [hg] at h
      cases hrec : compressLoop (make_encoding_table t) rest with
      | error e => rw [hrec] at h; exact absurd h (by simp [Except.map])
      | ok bits' =>
        rw [hrec] at h
        simp [Except.map] at h
        subst h
        obtain _ | f := fuel
        · exact absurd hf (by omega)
        · rw [decompressLoop, List.append_assoc,
            decode_table t (some b) code (tableGet_mem _ _ _ hg) (bits' ++ extra)]
          show Option.map (fun out => b :: out) (decompressLoop f t (bits' ++ extra)) =
            some (b :: rest)
          rw [compressLoop_decode rest t f bits' extra hrec (by simp at hf; omega)]
          rfl

theorem compressLoop_length : ∀ (l r : HTree) (S : List Nat) (bits : List Bool),
    compressLoop (make_encoding_table (.node l r)) S = .ok bits → S.length ≤ bits.length
  | l, r, [], bits => by
    intro h
    simp
  | l, r, b :: rest, bits => by
    intro h
    rw [compressLoop] at h
    cases hg : tableGet (make_encoding_table (.node l r)) (some b) with
    | none => rw [hg] at h; exact absurd h (by simp)
    | some code =>
      rw [hg] at h
      cases hrec : compressLoop (make_encoding_table (.node l r)) rest with
      | error e => rw [hrec] at h; exact absurd h (by simp [Except.map])
      | ok bits' =>
        rw [hrec] at h
        simp [Except.map] at h
        subst h
        have h1 := table_node_code_pos l r (some b) code (tableGet_mem _ _ _ hg)
        have h2 := compressLoop_length l r rest bits' hrec
        simp
        omega

theorem compressLoop_leaf : ∀ (v : Option Nat) (S : List Nat) (bits : List Bool),
    compressLoop (make_encoding_table (.leaf v)) S = .ok bits →
    S = [] ∧ v = none ∧ bits = []
  | v, [], bits => by
    intro h
    rw [compressLoop] at h
    by_cases hv : v = none
    · subst hv
      simp [make_encoding_table, tableAux, tableGet] at h
      exact ⟨rfl, rfl, by simp [h]⟩
    · simp [make_encoding_table, tableAux, tableGet, hv] at h
  | v, b :: rest, bits => by
    intro h
    rw [compressLoop] at h
    by_cases hv : v = some b
    · subst hv
      simp only [make_encoding_table, tableAux, tableGet, if_pos rfl] at h
      cases hrec : compressLoop (make_encoding_table (.leaf (some b))) rest with
      | error e =>
        rw [make_encoding_table, tableAux] at hrec
        rw [hrec] at h
        exact absurd h (by simp [Except.map])
      | ok bits' =>
        obtain ⟨-, hnone, -⟩ := compressLoop_leaf (some b) rest bits' hrec
        exact absurd hnone (by simp)
    · simp [make_encoding_table, tableAux, tableGet, hv] at h

theorem compressLoop_sentinel : ∀ (tbl : List (Option Nat × List Bool))
    (S : List Nat) (bits : List Bool),
    compressLoop tbl S = .ok bits →
    ∃ sc body, tableGet tbl none = some sc ∧ bits = body ++ sc
  | tbl, [], bits => by
    intro h
    rw [compressLoop] at h
    cases hg : tableGet tbl none with
    | none => rw [hg] at h; exact absurd h (by simp)
    | some code =>
      rw [hg] at h
      injection h with h
      exact ⟨code, [], rfl, by simp [h]⟩
  | tbl, b :: rest, bits => by
    intro h
    rw [compressLoop] at h
    cases hg : tableGet tbl (some b) with
    | none => rw [hg] at h; exact absurd h (by simp)
    | some code =>
      rw [hg] at h
      cases hrec : compressLoop tbl rest with
      | error e => rw [hrec] at h; exact absurd h (by simp [Except.map])
      | ok bits' =>
        rw [hrec] at h
        simp [Except.map] at h
        subst h
        obtain ⟨sc, body, hsc, hb⟩ := compressLoop_sentinel tbl rest bits' hrec
        exact ⟨sc, code ++ body, hsc, by simp [hb]⟩

/-! ## Further helper lemmas for the claims. -/

theorem map_mod256_eq (S : List Nat) (hS : ∀ b ∈ S, b < 256) :
    S.map (fun v => v % 2 ^ 8) = S := by
  induction S with
  | nil => rfl
  | cons b S ih =>
    have hb : b < 2 ^ 8 := by
      have h1 := hS b (List.mem_cons_self b S)
      have h2 : (2 : Nat) ^ 8 = 256 := by norm_num
      omega
    simp only [List.map_cons, Nat.mod_eq_of_lt hb]
    rw [ih (fun q hq => hS q (List.mem_cons_of_mem b hq))]

theorem compressLoop_first_missing : ∀ (tbl : List (Option Nat × List Bool))
    (pre : List Nat) (b : Nat) (post : List Nat),
    (∀ p ∈ pre, (tableGet tbl (some p)).isSome = true) →
    tableGet tbl (some b) = none →
    compressLoop tbl (pre ++ b :: post) = .error (.keyError (some b))
  | tbl, [], b, post, hpre, hb => by
    rw [List.nil_append, compressLoop, hb]
  | tbl, p :: pre, b, post, hpre, hb => by
    obtain ⟨cp, hcp⟩ := Option.isSome_iff_exists.mp (hpre p (List.mem_cons_self p pre))
    rw [List.cons_append, compressLoop]
    simp only [hcp]
    rw [compressLoop_first_missing tbl pre b post
      (fun q hq => hpre q (List.mem_cons_of_mem p hq)) hb]
    rfl

theorem compressLoop_no_sentinel : ∀ (tbl : List (Option Nat × List Bool)) (S : List Nat),
    (∀ b ∈ S, (tableGet tbl (some b)).isSome = true) →
    tableGet tbl none = none →
    compressLoop tbl S = .error (.keyError none)
  | tbl, [], henc, hs => by
    rw [compressLoop, hs]
  | tbl, b :: S, henc, hs => by
    obtain ⟨cb, hcb⟩ := Option.isSome_iff_exists.mp (henc b (List.mem_cons_self b S))
    rw [compressLoop]
    simp only [hcb]
    rw [compressLoop_no_sentinel tbl S (fun q hq => henc q (List.mem_cons_of_mem b hq)) hs]
    rfl

/-! ## The claims. -/

/-- C1: for every finite byte sequence S and every valid tree T whose leaf
alphabet covers every byte value in S plus the sentinel (equivalently,
whenever compress succeeds on T and S), decompressing the stream produced
by compress reproduces S exactly; the empty input is the instance S = []. -/
theorem C1_round_trip (T : HTree) (S : List Nat) (c : CStream)
    (hS : ∀ b ∈ S, b < 256) (hc : compress T S = .ok c) :
    decompress c = .output S := by
  rw [compress] at hc
  cases hcl : compressLoop (make_encoding_table T) S with
  | error e => rw [hcl] at hc; exact absurd hc (by simp)
  | ok bits =>
    rw [hcl] at hc
    injection hc with hc
    subst hc
    have hw := writeBits_stream bits ⟨[], []⟩ (by simp)
    have hfl := flushBW_stream (writeBits ⟨[], []⟩ bits) hw.2
    have hstream : bwStream (writeBits ⟨[], []⟩ bits) = bits := by
      rw [hw.1]; simp [bwStream, bytesToBits]
    have hP : bytesToBits (flushBW (writeBits ⟨[], []⟩ bits)).bytes =
        bits ++ List.replicate ((8 - (writeBits ⟨[], []⟩ bits).buf.length) % 8) false := by
      have h1 := hfl.1
      rw [hstream] at h1
      rw [bwStream, hfl.2, List.append_nil] at h1
      exact h1
    simp only [decompress, read_tree, write_tree]
    rw [hP]
    have hfuel : S.length <
        (bits ++ List.replicate ((8 - (writeBits ⟨[], []⟩ bits).buf.length) % 8) false).length
          + 1 := by
      cases T with
      | leaf v =>
        obtain ⟨h1, -, -⟩ := compressLoop_leaf v S bits hcl
        subst h1
        simp
      | node l r =>
        have := compressLoop_length l r S bits hcl
        simp
        omega
    rw [compressLoop_decode S T _ bits _ hcl hfuel]
    show DResult.output (decompressOut S) = DResult.output S
    rw [decompressOut_eq, map_mod256_eq S hS]

theorem C1_round_trip_witness :
    (∀ b ∈ [65], b < 256) ∧
    decompress ⟨some (HTree.node (.leaf (some 65)) (.leaf none)), [64], 0⟩ =
      .output [65] :=
  ⟨by decide,
    C1_round_trip (HTree.node (.leaf (some 65)) (.leaf none)) [65]
      ⟨some (HTree.node (.leaf (some 65)) (.leaf none)), [64], 0⟩ (by decide) rfl⟩

/-- C2 (counterexample to the claim as stated): in the tree below, the
bit source of the payload byte 0x00 is exhausted after the decoder has
consumed two bits and stands at an internal node, strictly mid-symbol; yet
decode_byte returns the value none, identical to the sentinel, and
decompress presents the partial output [7, 7] as a normal successful
result rather than reporting any distinct truncation failure. -/
theorem C2_counterexample :
    decode_byte
      (HTree.node (.node (.node (.leaf (some 7)) (.leaf (some 8))) (.leaf (some 9)))
        (.leaf none)) [false, false] = (none, []) ∧
    decompress
      ⟨some (HTree.node (.node (.node (.leaf (some 7)) (.leaf (some 8))) (.leaf (some 9)))
        (.leaf none)), [0], 0⟩ = .output [7, 7] :=
  ⟨rfl, rfl⟩

/-- C2 (amended): when the bit source is exhausted while the decoder
stands at an internal node — mid-symbol — decode_byte returns none, the
very value that marks the sentinel leaf, so the decompress loop treats
the truncation as a normal end of stream; no distinct TruncatedStream
condition exists and the partial output is presented as a valid result. -/
theorem C2_truncation_is_eof (l r : HTree) :
    decode_byte (HTree.node l r) [] = (none, []) :=
  rfl

/-- C3 (the code at the failing input): on a stream whose tree section is
empty, pickle.load raises EOFError and the handler in read_tree executes
return NONE, where NONE is an undefined Python name; the resulting
NameError escapes decompress as a crash, contradicting the claim that
such input never crashes. -/
theorem C3_empty_tree_crashes (payload : List Nat) (p : Nat) :
    decompress ⟨none, payload, p⟩ = .crash .nameError :=
  rfl

/-- C4: whenever a decode call returns the sentinel value, the decode
loop of decompress stops at once, consuming the sentinel code and
emitting nothing for it; outputs only ever come from byte-valued leaves,
so the sentinel value never acts as data in the output. -/
theorem C4_stop_on_sentinel (t : HTree) (bits rest : List Bool) (fuel : Nat)
    (h : decode_byte t bits = (none, rest)) :
    decompressLoop (fuel + 1) t bits = some [] := by
  rw [decompressLoop, h]

theorem C4_stop_on_sentinel_witness :
    decode_byte (HTree.node (.leaf (some 65)) (.leaf none)) [true] = (none, []) ∧
    decompressLoop 1 (HTree.node (.leaf (some 65)) (.leaf none)) [true] = some [] :=
  ⟨rfl, C4_stop_on_sentinel (HTree.node (.leaf (some 65)) (.leaf none)) [true] [] 0 rfl⟩

/-- C5: when the input is exhausted, the encode loop writes the sentinel
code from the table as the final bit sequence, and the flush pads the
written bits with 0 bits to the next byte boundary: the payload of the
compressed stream carries exactly the encoded bits followed by fewer than
eight 0 padding bits, and its bit length is a whole number of bytes. -/
theorem C5_sentinel_then_flush (T : HTree) (S : List Nat) (bits : List Bool) (c : CStream)
    (hbits : compressLoop (make_encoding_table T) S = .ok bits)
    (hc : compress T S = .ok c) :
    (∃ sc body, tableGet (make_encoding_table T) none = some sc ∧ bits = body ++ sc) ∧
    (∃ k, k < 8 ∧ bytesToBits c.payload = bits ++ List.replicate k false ∧
      (bytesToBits c.payload).length % 8 = 0) := by
  constructor
  · exact compressLoop_sentinel (make_encoding_table T) S bits hbits
  · rw [compress, hbits] at hc
    injection hc with hc
    subst hc
    have hw := writeBits_stream bits ⟨[], []⟩ (by simp)
    have hfl := flushBW_stream (writeBits ⟨[], []⟩ bits) hw.2
    have hstream : bwStream (writeBits ⟨[], []⟩ bits) = bits := by
      rw [hw.1]; simp [bwStream, bytesToBits]
    refine ⟨(8 - (writeBits ⟨[], []⟩ bits).buf.length) % 8, Nat.mod_lt _ (by omega), ?_, ?_⟩
    · have h1 := hfl.1
      rw [hstream] at h1
      rw [bwStream, hfl.2, List.append_nil] at h1
      exact h1
    · rw [bytesToBits_length]
      exact Nat.mul_mod_right 8 _

theorem C5_sentinel_then_flush_witness :
    (∃ sc body,
      tableGet (make_encoding_table (HTree.node (.leaf (some 65)) (.leaf none))) none =
        some sc ∧ [false, true] = body ++ sc) ∧
    (∃ k, k < 8 ∧ bytesToBits ([64] : List Nat) = [false, true] ++ List.replicate k false ∧
      (bytesToBits ([64] : List Nat)).length % 8 = 0) := by
  have h := C5_sentinel_then_flush (HTree.node (.leaf (some 65)) (.leaf none)) [65]
    [false, true] ⟨some (HTree.node (.leaf (some 65)) (.leaf none)), [64], 0⟩ rfl rfl
  simpa using h

/-- C6: when the input contains a byte with no entry in the encoding
table, compress fails with the KeyError of the table access at that very
byte (the UnencodableSymbol condition): every earlier symbol was encoded,
the offending symbol is never skipped, and no later symbol is encoded. -/
theorem C6_unencodable (T : HTree) (pre post : List Nat) (b : Nat)
    (hpre : ∀ p ∈ pre, (tableGet (make_encoding_table T) (some p)).isSome = true)
    (hb : tableGet (make_encoding_table T) (some b) = none) :
    compress T (pre ++ b :: post) = .error (.keyError (some b)) := by
  rw [compress, compressLoop_first_missing (make_encoding_table T) pre b post hpre hb]

theorem C6_unencodable_witness :
    compress (HTree.node (.leaf (some 65)) (.leaf none)) [65, 66, 65] =
      .error (.keyError (some 66)) :=
  C6_unencodable (HTree.node (.leaf (some 65)) (.leaf none)) [65] [65] 66 (by decide) rfl

/-- C7: a decode call follows the root-to-leaf path recorded in the
encoding table, reading one bit per internal node, moving left on 0 and
right on 1 (the table records a left edge as 0 and a right edge as 1):
it consumes exactly the code of a leaf value, returns that value, and
leaves the remaining bits unread. -/
theorem C7_decode_follows_path (t : HTree) (v : Option Nat) (code rest : List Bool)
    (h : (v, code) ∈ make_encoding_table t) :
    decode_byte t (code ++ rest) = (v, rest) :=
  decode_table t v code h rest

theorem C7_decode_follows_path_witness :
    decode_byte (HTree.node (.leaf (some 65)) (.leaf none)) ([false] ++ [true]) =
      (some 65, [true]) :=
  C7_decode_follows_path (HTree.node (.leaf (some 65)) (.leaf none)) (some 65)
    [false] [true] (by decide)

/-- C8: on a single-node tree, whose root is a leaf, a decode call
returns the value of that leaf and consumes zero bits: the remaining bit
sequence is exactly the one supplied. -/
theorem C8_leaf_root (v : Option Nat) (bits : List Bool) :
    decode_byte (HTree.leaf v) bits = (v, bits) := by
  cases bits <;> rfl

/-- C9: read_tree seeks to offset 0 before reading, so both read_tree and
decompress are independent of the position the stream is in when called:
the tree section is read from the start of the stream. -/
theorem C9_position_independent (d : Option HTree) (payload : List Nat) (p q : Nat) :
    read_tree ⟨d, payload, p⟩ = read_tree ⟨d, payload, 0⟩ ∧
    decompress ⟨d, payload, p⟩ = decompress ⟨d, payload, q⟩ :=
  ⟨rfl, rfl⟩

/-- C10: when the encoding table of the tree has no entry for the
sentinel value none, compress encodes the whole input and then fails with
the KeyError of the table access table[None] at input exhaustion, instead
of writing an end marker. -/
theorem C10_missing_sentinel_entry (T : HTree) (S : List Nat)
    (henc : ∀ b ∈ S, (tableGet (make_encoding_table T) (some b)).isSome = true)
    (hs : tableGet (make_encoding_table T) none = none) :
    compress T S = .error (.keyError none) := by
  rw [compress, compressLoop_no_sentinel (make_encoding_table T) S henc hs]

theorem C10_missing_sentinel_entry_witness :
    compress (HTree.leaf (some 5)) [5, 5] = .error (.keyError none) :=
  C10_missing_sentinel_entry (HTree.leaf (some 5)) [5, 5] (by decide) rfl

end HuffmanUtil
